import Mathlib

/-!
Shallow embedding of `src/cmd/adapter/main.go`, a gRPC record store for
`pb.Class` records backed by the badger ordered key-value engine.

Modelling choices:
* The engine state (`Store`) is the list of key/value pairs in ascending
  key order, which is exactly badger's iteration order with
  `DefaultIteratorOptions`.  `setKey` is ordered insert-or-replace
  (badger `txn.Set`), `getKey` is lookup (`txn.Get`), `delKey` removes
  the pairs carrying the key (`txn.Delete`; keys are unique in every
  store the engine can reach, where removing all occurrences and
  removing the single occurrence agree).
* Each RPC handler returns its response together with the gRPC-level
  error value (`RpcReturn`); the Go handlers always `return resp, nil`,
  with the transaction error only logged.  The transaction error itself
  is modelled explicitly where it can arise purely (`getTxn`).
* In `List`, a stored key with no `.` makes the Go code slice with
  `lastIndex = -1`, a runtime panic; the scan is therefore modelled as
  `Option`-valued, `none` standing for that crash.
-/

def delim : String := "."

/-- The `pb.Class` protobuf message: the record exposed by the service. -/
structure Pb.Class where
  id : String
  name : String
  semester : String
deriving DecidableEq, Repr

/-- Engine state: key/value pairs in strictly ascending key order. -/
abbrev Store := List (String × String)

/-- `txn.Get`: first value stored under key `k`. -/
def getKey : Store → String → Option String
  | [], _ => none
  | (k', v') :: rest, k => if k = k' then some v' else getKey rest k

/-- Badger's key comparator: lexicographic comparison of the byte
sequences, here expressed on the characters (for UTF-8 encoded keys the
bytewise order and the codepoint order coincide). -/
def charListLt : List Char → List Char → Bool
  | _, [] => false
  | [], _ :: _ => true
  | a :: as, b :: bs =>
    if a.toNat < b.toNat then true
    else if b.toNat < a.toNat then false
    else charListLt as bs

/-- Strict order on stored keys, badger's iteration order. -/
def keyLt (a b : String) : Bool := charListLt a.data b.data

/-- `txn.Set`: insert `(k, v)` keeping ascending key order, replacing an
existing pair with the same key. -/
def setKey : Store → String → String → Store
  | [], k, v => [(k, v)]
  | (k', v') :: rest, k, v =>
    if keyLt k k' then (k, v) :: (k', v') :: rest
    else if k = k' then (k, v) :: rest
    else (k', v') :: setKey rest k v

/-- `txn.Delete`: remove the pairs stored under key `k` (a no-op when the
key is absent, as in badger). -/
def delKey : Store → String → Store
  | [], _ => []
  | (k', v') :: rest, k => if k' = k then delKey rest k else (k', v') :: delKey rest k

/-- Key encoding used by every handler: `id + delim + fieldName`,
plain concatenation with no escaping. -/
def encodeKey (id fieldName : String) : String :=
  id ++ delim ++ fieldName

/-- Split a character list at the last occurrence of `'.'`:
`strings.LastIndex(k, ".")` followed by the two slices
`k[:lastIndex]` and `k[lastIndex+1:]`.  `none` when no `'.'` occurs
(Go's `lastIndex = -1`, where the slice expression panics). -/
def splitLastDot : List Char → Option (List Char × List Char)
  | [] => none
  | c :: rest =>
    match splitLastDot rest with
    | some (i, f) => some (c :: i, f)
    | none => if c = '.' then some ([], rest) else none

/-- Decode a stored key into `(id, fieldName)` by the last-`.` rule. -/
def decodeKey (k : String) : Option (String × String) :=
  match splitLastDot k.data with
  | some (i, f) => some (⟨i⟩, ⟨f⟩)
  | none => none

/-- Field assignment inside the `List` scan: `param == "Name"` sets the
name, `param == "Semester"` sets the semester, anything else is ignored. -/
def setField (c : Pb.Class) (param v : String) : Pb.Class :=
  if param = "Name" then { c with name := v }
  else if param = "Semester" then { c with semester := v }
  else c

/-- Index of the record with the given id in the output slice.  The Go
code keeps this index in `classMap`; since an id is entered into
`classMap` exactly when its placeholder is appended to `cs.Classes`,
`classMap[id]` is precisely the position of the unique record with that
id in the slice. -/
def findIdxById : List Pb.Class → String → Option Nat
  | [], _ => none
  | c :: rest, id =>
    if c.id = id then some 0
    else (findIdxById rest id).map (· + 1)

/-- Replace the element at position `i` by `f` applied to it. -/
def modifyAt : List Pb.Class → Nat → (Pb.Class → Pb.Class) → List Pb.Class
  | [], _, _ => []
  | c :: rest, 0, f => f c :: rest
  | c :: rest, n + 1, f => c :: modifyAt rest n f

/-- The record assembler: the iterator loop of `server.List`.  Every
scanned key is split at its last `.`; an unseen id first gets a
placeholder `{Id: id}` appended, then the value is assigned into the
record's field selected by `param`.  A key with no `.` crashes the Go
loop (`none`). -/
def assemble (acc : List Pb.Class) : Store → Option (List Pb.Class)
  | [] => some acc
  | (k, v) :: rest =>
    match decodeKey k with
    | none => none
    | some (id, param) =>
      match findIdxById acc id with
      | some i => assemble (modifyAt acc i (fun c => setField c param v)) rest
      | none => assemble (acc ++ [setField (Pb.Class.mk id "" "") param v]) rest

/-- A handler's return value: the response message together with the
gRPC-level `error` result. -/
structure RpcReturn (α : Type) where
  resp : α
  err : Option String
deriving DecidableEq, Repr

def errKeyNotFound : String := "Key not found"

/-- The read transaction of `server.Get`.  `c` starts as
`{Id: in.Id, Name: "", Semester: ""}`; the closure mutates `c.Name`
before looking up the Semester key, so an abort on a missing Semester
key leaves the already-assigned name in place. -/
def getTxn (s : Store) (id : String) : Pb.Class × Option String :=
  let c : Pb.Class := ⟨id, "", ""⟩
  match getKey s (id ++ delim ++ "Name") with
  | none => (c, some errKeyNotFound)
  | some nv =>
    let c := { c with name := nv }
    match getKey s (id ++ delim ++ "Semester") with
    | none => (c, some errKeyNotFound)
    | some sv => ({ c with semester := sv }, none)

/-- `server.Get`: runs the read transaction, logs any error, and
returns the (possibly partially filled) record with a nil gRPC error. -/
def serverGet (s : Store) (id : String) : RpcReturn Pb.Class :=
  { resp := (getTxn s id).1, err := none }

/-- The write transaction of `server.Create`: store name, store
semester. -/
def applyCreate (s : Store) (c : Pb.Class) : Store :=
  setKey (setKey s (c.id ++ delim ++ "Name") c.name) (c.id ++ delim ++ "Semester") c.semester

/-- `server.Create`: writes both field pairs and echoes the input
record with a nil gRPC error. -/
def serverCreate (s : Store) (c : Pb.Class) : Store × RpcReturn Pb.Class :=
  (applyCreate s c, { resp := c, err := none })

/-- The write transaction of `server.Update` (same statements as
`Create`'s). -/
def applyUpdate (s : Store) (c : Pb.Class) : Store :=
  setKey (setKey s (c.id ++ delim ++ "Name") c.name) (c.id ++ delim ++ "Semester") c.semester

/-- `server.Update`: textually the same handler body as
`server.Create` up to log strings. -/
def serverUpdate (s : Store) (c : Pb.Class) : Store × RpcReturn Pb.Class :=
  (applyUpdate s c, { resp := c, err := none })

/-- The write transaction of `server.Delete`: delete `in.Id + ".Name"`,
delete `in.Id + ".Semester"`. -/
def applyDelete (s : Store) (c : Pb.Class) : Store :=
  delKey (delKey s (c.id ++ ".Name")) (c.id ++ ".Semester")

/-- `server.Delete`: removes both field pairs and returns `pb.Empty`
with a nil gRPC error. -/
def serverDelete (s : Store) (c : Pb.Class) : Store × RpcReturn Unit :=
  (applyDelete s c, { resp := (), err := none })

/-- `server.List`: full forward scan assembled into records, returned
with a nil gRPC error; `none` is the panic on a separator-free key. -/
def serverList (s : Store) : Option (RpcReturn (List Pb.Class)) :=
  (assemble [] s).map (fun cs => { resp := cs, err := none })

/-! ## Store lemmas -/

theorem charToNat_strictMono : StrictMono Char.toNat := fun _ _ h => h

theorem charToNat_inj {a b : Char} (h : a.toNat = b.toNat) : a = b :=
  charToNat_strictMono.injective h

theorem charListLt_irrefl (l : List Char) : charListLt l l = false := by
  induction l with
  | nil => rfl
  | cons a as ih => simp [charListLt, ih]

theorem charListLt_asymm (l1 l2 : List Char) (h : charListLt l1 l2 = true) :
    charListLt l2 l1 = false := by
  induction l1 generalizing l2 with
  | nil =>
    cases l2 with
    | nil => simp [charListLt] at h
    | cons b bs => simp [charListLt]
  | cons a as ih =>
    cases l2 with
    | nil => simp [charListLt] at h
    | cons b bs =>
      by_cases hab : a.toNat < b.toNat
      · simp [charListLt, hab, Nat.lt_asymm hab]
      · by_cases hba : b.toNat < a.toNat
        · simp [charListLt, hab, hba] at h
        · have hx : charListLt as bs = true := by simpa [charListLt, hab, hba] using h
          simp [charListLt, hab, hba, ih bs hx]

theorem charListLt_eq (l1 l2 : List Char) (h1 : charListLt l1 l2 = false)
    (h2 : charListLt l2 l1 = false) : l1 = l2 := by
  induction l1 generalizing l2 with
  | nil =>
    cases l2 with
    | nil => rfl
    | cons b bs => simp [charListLt] at h1
  | cons a as ih =>
    cases l2 with
    | nil => simp [charListLt] at h2
    | cons b bs =>
      by_cases hab : a.toNat < b.toNat
      · simp [charListLt, hab] at h1
      · by_cases hba : b.toNat < a.toNat
        · simp [charListLt, hba] at h2
        · have hc : a = b :=
            charToNat_inj (Nat.le_antisymm (Nat.not_lt.mp hba) (Nat.not_lt.mp hab))
          cases hc
          have h1x : charListLt as bs = false := by simpa [charListLt] using h1
          have h2x : charListLt bs as = false := by simpa [charListLt] using h2
          rw [ih bs h1x h2x]

theorem charListLt_trans (l1 l2 l3 : List Char) (h1 : charListLt l1 l2 = true)
    (h2 : charListLt l2 l3 = true) : charListLt l1 l3 = true := by
  induction l1 generalizing l2 l3 with
  | nil =>
    cases l3 with
    | nil =>
      cases l2 with
      | nil => simp [charListLt] at h1
      | cons b bs => simp [charListLt] at h2
    | cons c cs => simp [charListLt]
  | cons a as ih =>
    cases l2 with
    | nil => simp [charListLt] at h1
    | cons b bs =>
      cases l3 with
      | nil => simp [charListLt] at h2
      | cons c cs =>
        by_cases hab : a.toNat < b.toNat
        · by_cases hbc : b.toNat < c.toNat
          · simp [charListLt, Nat.lt_trans hab hbc]
          · by_cases hcb : c.toNat < b.toNat
            · simp [charListLt, hbc, hcb] at h2
            · have : a.toNat < c.toNat :=
                Nat.lt_of_lt_of_le hab (Nat.not_lt.mp hcb)
              simp [charListLt, this]
        · by_cases hba : b.toNat < a.toNat
          · simp [charListLt, hab, hba] at h1
          · have heq : a.toNat = b.toNat :=
              Nat.le_antisymm (Nat.not_lt.mp hba) (Nat.not_lt.mp hab)
            have h1x : charListLt as bs = true := by simpa [charListLt, hab, hba] using h1
            by_cases hbc : b.toNat < c.toNat
            · simp [charListLt, heq ▸ hbc]
            · by_cases hcb : c.toNat < b.toNat
              · simp [charListLt, hbc, hcb] at h2
              · have h2x : charListLt bs cs = true := by simpa [charListLt, hbc, hcb] using h2
                have hac : ¬ a.toNat < c.toNat := heq ▸ hbc
                have hca : ¬ c.toNat < a.toNat := heq ▸ hcb
                simp [charListLt, hac, hca, ih bs cs h1x h2x]

theorem keyLt_irrefl (a : String) : keyLt a a = false := charListLt_irrefl a.data

theorem keyLt_asymm {a b : String} (h : keyLt a b = true) : keyLt b a = false :=
  charListLt_asymm a.data b.data h

theorem keyLt_eq {a b : String} (h1 : keyLt a b = false) (h2 : keyLt b a = false) :
    a = b := by
  cases a; cases b
  exact congrArg String.mk (charListLt_eq _ _ h1 h2)

theorem keyLt_trans {a b c : String} (h1 : keyLt a b = true) (h2 : keyLt b c = true) :
    keyLt a c = true :=
  charListLt_trans a.data b.data c.data h1 h2

theorem keyLt_ne {a b : String} (h : keyLt a b = true) : a ≠ b := by
  intro he
  rw [he, keyLt_irrefl] at h
  cases h

theorem keyLt_trichotomy (a b : String) :
    keyLt a b = true ∨ a = b ∨ keyLt b a = true := by
  cases h1 : keyLt a b with
  | true => exact Or.inl rfl
  | false =>
    cases h2 : keyLt b a with
    | true => exact Or.inr (Or.inr rfl)
    | false => exact Or.inr (Or.inl (keyLt_eq h1 h2))

theorem getKey_setKey (s : Store) (k v k') :
    getKey (setKey s k v) k' = if k' = k then some v else getKey s k' := by
  induction s with
  | nil =>
    by_cases h : k' = k <;> simp [setKey, getKey, h]
  | cons p rest ih =>
    obtain ⟨a, b⟩ := p
    cases hka : keyLt k a with
    | true =>
      by_cases h : k' = k <;> simp [setKey, getKey, hka, h]
    | false =>
      by_cases hke : k = a
      · subst hke
        by_cases h : k' = k <;> simp [setKey, getKey, hka, h]
      · have hne : a ≠ k := Ne.symm hke
        by_cases h : k' = a
        · subst h
          simp [setKey, getKey, hka, hke, hne]
        · simp [setKey, getKey, hka, hke, h, ih]

theorem getKey_delKey (s : Store) (k k') :
    getKey (delKey s k) k' = if k' = k then none else getKey s k' := by
  induction s with
  | nil => by_cases h : k' = k <;> simp [delKey, getKey, h]
  | cons p rest ih =>
    obtain ⟨a, b⟩ := p
    by_cases hak : a = k
    · subst hak
      by_cases h : k' = a
      · subst h
        simp [delKey, getKey, ih]
      · simp [delKey, getKey, h, ih]
    · by_cases h : k' = a
      · subst h
        simp [delKey, getKey, hak, Ne.symm hak]
      · simp [delKey, getKey, hak, h, ih]

theorem setKey_setKey_self (s : Store) (k v v') :
    setKey (setKey s k v') k v = setKey s k v := by
  induction s with
  | nil => simp [setKey, keyLt_irrefl]
  | cons p rest ih =>
    obtain ⟨a, b⟩ := p
    cases hka : keyLt k a with
    | true => simp [setKey, hka, keyLt_irrefl]
    | false =>
      by_cases hke : k = a
      · subst hke
        simp [setKey, hka, keyLt_irrefl]
      · simp [setKey, hka, hke, ih]

theorem setKey_comm (s : Store) (k1 v1 k2 v2 : String) (hne : k1 ≠ k2) :
    setKey (setKey s k1 v1) k2 v2 = setKey (setKey s k2 v2) k1 v1 := by
  induction s with
  | nil =>
    rcases keyLt_trichotomy k1 k2 with h | h | h
    · simp [setKey, h, keyLt_asymm h, hne, Ne.symm hne]
    · exact absurd h hne
    · simp [setKey, h, keyLt_asymm h, hne, Ne.symm hne]
  | cons p rest ih =>
    obtain ⟨a, b⟩ := p
    rcases keyLt_trichotomy k1 a with h1 | h1 | h1 <;>
      rcases keyLt_trichotomy k2 a with h2 | h2 | h2
    · rcases keyLt_trichotomy k1 k2 with h | h | h
      · simp [setKey, h1, h2, h, keyLt_asymm h, hne, Ne.symm hne]
      · exact absurd h hne
      · simp [setKey, h1, h2, h, keyLt_asymm h, hne, Ne.symm hne]
    · subst h2
      simp [setKey, h1, keyLt_asymm h1, keyLt_irrefl, hne, Ne.symm hne]
    · have hk : keyLt k1 k2 = true := keyLt_trans h1 h2
      simp [setKey, h1, h2, keyLt_asymm h2, Ne.symm (keyLt_ne h2), keyLt_asymm hk,
        Ne.symm (keyLt_ne hk), hne]
    · subst h1
      simp [setKey, h2, keyLt_asymm h2, keyLt_irrefl, hne, Ne.symm hne]
    · exact absurd (h1.trans h2.symm) hne
    · subst h1
      simp [setKey, h2, keyLt_asymm h2, keyLt_irrefl, hne, Ne.symm hne]
    · have hk : keyLt k2 k1 = true := keyLt_trans h2 h1
      simp [setKey, h1, h2, keyLt_asymm h1, Ne.symm (keyLt_ne h1), keyLt_asymm hk,
        Ne.symm (keyLt_ne hk), hne, Ne.symm hne]
    · subst h2
      simp [setKey, h1, keyLt_asymm h1, keyLt_irrefl, Ne.symm (keyLt_ne h1), hne, Ne.symm hne]
    · simp [setKey, h1, h2, keyLt_asymm h1, keyLt_asymm h2, Ne.symm (keyLt_ne h1),
        Ne.symm (keyLt_ne h2), ih]

theorem nameKey_ne_semKey (id : String) :
    id ++ delim ++ "Name" ≠ id ++ delim ++ "Semester" := by
  intro h
  have hl := congrArg String.length h
  simp only [String.length_append] at hl
  have : ("Name" : String).length = ("Semester" : String).length := by omega
  exact absurd this (by decide)

theorem splitLastDot_eq_none (l : List Char) (h : '.' ∉ l) : splitLastDot l = none := by
  induction l with
  | nil => rfl
  | cons c rest ih =>
    have hc : ¬ c = '.' := fun hc => h (hc ▸ List.mem_cons_self c rest)
    simp [splitLastDot, ih (fun hm => h (List.mem_cons_of_mem _ hm)), hc]

theorem splitLastDot_append (l f : List Char) (h : '.' ∉ f) :
    splitLastDot (l ++ '.' :: f) = some (l, f) := by
  induction l with
  | nil => simp [splitLastDot, splitLastDot_eq_none f h]
  | cons c rest ih => simp [splitLastDot, ih]

theorem data_encodeKey (id f : String) :
    (encodeKey id f).data = id.data ++ '.' :: f.data := by
  simp [encodeKey, delim, String.data_append]

theorem decodeKey_encodeKey (id f : String) (h : '.' ∉ f.data) :
    decodeKey (encodeKey id f) = some (id, f) := by
  unfold decodeKey
  rw [data_encodeKey, splitLastDot_append _ _ h]

theorem keyName_plain (id : String) : id ++ delim ++ "Name" = id ++ ".Name" := by
  rw [String.append_assoc]
  exact congrArg (fun t => id ++ t) (by decide)

theorem keySem_plain (id : String) : id ++ delim ++ "Semester" = id ++ ".Semester" := by
  rw [String.append_assoc]
  exact congrArg (fun t => id ++ t) (by decide)

theorem nameKeyP_ne_semKeyP (id : String) : id ++ ".Name" ≠ id ++ ".Semester" := by
  rw [← keyName_plain, ← keySem_plain]
  exact nameKey_ne_semKey id

theorem setField_unknown (c : Pb.Class) (p v : String)
    (h1 : p ≠ "Name") (h2 : p ≠ "Semester") : setField c p v = c := by
  simp [setField, h1, h2]

theorem splitLastDot_isSome (l : List Char) (h : '.' ∈ l) :
    (splitLastDot l).isSome := by
  induction l with
  | nil => cases h
  | cons c rest ih =>
    rcases List.mem_cons.mp h with h | h
    · cases hrest : splitLastDot rest <;> simp [splitLastDot, hrest, ← h]
    · have := ih h
      cases hrest : splitLastDot rest with
      | none => rw [hrest] at this; cases this
      | some p => simp [splitLastDot, hrest]

theorem assemble_some (s : Store) (acc : List Pb.Class)
    (h : ∀ p ∈ s, '.' ∈ (p.1 : String).data) :
    ∃ cs, assemble acc s = some cs := by
  induction s generalizing acc with
  | nil => exact ⟨acc, rfl⟩
  | cons q rest ih =>
    obtain ⟨k, v⟩ := q
    have hk : '.' ∈ k.data := h (k, v) (List.mem_cons_self _ _)
    have hs := splitLastDot_isSome k.data hk
    have hrest : ∀ p ∈ rest, '.' ∈ (p.1 : String).data :=
      fun p hp => h p (List.mem_cons_of_mem _ hp)
    cases hd : splitLastDot k.data with
    | none => rw [hd] at hs; cases hs
    | some pr =>
      obtain ⟨i, f⟩ := pr
      have hdk : decodeKey k = some (⟨i⟩, ⟨f⟩) := by simp [decodeKey, hd]
      cases hfind : findIdxById acc (⟨i⟩ : String) with
      | some j => simpa [assemble, hdk, hfind] using ih _ hrest
      | none => simpa [assemble, hdk, hfind] using ih _ hrest

theorem set2_idem (s : Store) (k1 v1 k2 v2 : String) (hne : k1 ≠ k2) :
    setKey (setKey (setKey (setKey s k1 v1) k2 v2) k1 v1) k2 v2
      = setKey (setKey s k1 v1) k2 v2 := by
  rw [setKey_comm (setKey s k1 v1) k2 v2 k1 v1 (Ne.symm hne),
      setKey_setKey_self, setKey_setKey_self]

/-! ## Claim theorems -/

/-- Claim C1: for every record R and every prior store state, `Create(R)`
followed by `Get(R.id)` (with no mutation in between) returns a record
whose name and semester equal R's (in fact the whole record equals R). -/
theorem createGetRoundtrip (s : Store) (r : Pb.Class) :
    (serverGet (serverCreate s r).1 r.id).resp.name = r.name ∧
    (serverGet (serverCreate s r).1 r.id).resp.semester = r.semester := by
  have h : (serverGet (serverCreate s r).1 r.id).resp = r := by
    simp [serverGet, serverCreate, applyCreate, getTxn, getKey_setKey,
      nameKey_ne_semKey r.id]
  rw [h]
  exact ⟨rfl, rfl⟩

/-- Claim C3: for every id and every prior store state, `Delete` of the
record with that id followed by `Get(id)` returns the record with the
requested id and empty name and semester fields. -/
theorem deleteThenGetEmpty (s : Store) (r : Pb.Class) :
    (serverGet (serverDelete s r).1 r.id).resp = ⟨r.id, "", ""⟩ ∧
    (serverGet (serverDelete s r).1 r.id).err = none := by
  refine ⟨?_, rfl⟩
  simp [serverGet, serverDelete, applyDelete, getTxn, keyName_plain,
    getKey_delKey, nameKeyP_ne_semKeyP r.id]

/-- Claim C8: `Update` is behaviorally identical to `Create`: same
resulting store, same echoed response, same (nil) gRPC error, for every
input record and every initial store state. -/
theorem updateEqCreate (s : Store) (r : Pb.Class) :
    serverUpdate s r = serverCreate s r := rfl

/-- Claim C9: `Update` is idempotent on the store: a second application
of the same record (and by iteration any further number of
applications) leaves the store produced by the first application
unchanged. -/
theorem updateIdempotent (s : Store) (r : Pb.Class) :
    (serverUpdate (serverUpdate s r).1 r).1 = (serverUpdate s r).1 ∧
    ∀ n : Nat, (fun t => (serverUpdate t r).1)^[n] (serverUpdate s r).1
      = (serverUpdate s r).1 := by
  have hid : applyUpdate (applyUpdate s r) r = applyUpdate s r := by
    unfold applyUpdate
    exact set2_idem s _ r.name _ r.semester (nameKey_ne_semKey r.id)
  refine ⟨hid, fun n => ?_⟩
  induction n with
  | zero => rfl
  | succ m ihm => rw [Function.iterate_succ_apply, show (serverUpdate (serverUpdate s r).1 r).1 = (serverUpdate s r).1 from hid, ihm]

/-- Claim C10: the record returned by `Get` always carries the requested
id, whatever the store state and however far the read transaction got. -/
theorem getIdEcho (s : Store) (id : String) :
    (serverGet s id).resp.id = id := by
  unfold serverGet getTxn
  cases getKey s (id ++ delim ++ "Name") with
  | none => rfl
  | some nv =>
    cases getKey s (id ++ delim ++ "Semester") with
    | none => rfl
    | some sv => rfl

/-- Claim C5: encoding concatenates id, the `.` separator, and the field
name with no escaping, and decoding splits at the last separator, so
any id — including one containing the separator, such as `"x.y"` — round
trips with any dot-free field name such as `"Name"`. -/
theorem encodeDecodeLastSep (id f : String) (h : '.' ∉ f.data) :
    encodeKey id f = id ++ delim ++ f ∧
    decodeKey (encodeKey id f) = some (id, f) :=
  ⟨rfl, decodeKey_encodeKey id f h⟩

/-- Witness for C5 at the spec's own example: id `"x.y"`, field
`"Name"`, encoded key `"x.y.Name"`. -/
theorem encodeDecodeLastSep_witness :
    encodeKey "x.y" "Name" = "x.y.Name" ∧
    (encodeKey "x.y" "Name" = "x.y" ++ delim ++ "Name" ∧
      decodeKey (encodeKey "x.y" "Name") = some ("x.y", "Name")) :=
  ⟨by decide, encodeDecodeLastSep "x.y" "Name" (by decide)⟩

/-- Claim C2: every RPC method hands back a nil gRPC error.  `Get`,
`Create`, `Update` and `Delete` do so unconditionally (the transaction
error — such as `Get`'s key-not-found — is only logged); `List` does so
on every store satisfying the spec's data invariant that each stored
key contains the separator (a separator-free key crashes the Go scan
rather than producing any response). -/
theorem rpcSuccessAlways :
    (∀ (s : Store) (id : String), (serverGet s id).err = none) ∧
    (∀ (s : Store) (r : Pb.Class), (serverCreate s r).2.err = none) ∧
    (∀ (s : Store) (r : Pb.Class), (serverUpdate s r).2.err = none) ∧
    (∀ (s : Store) (r : Pb.Class), (serverDelete s r).2.err = none) ∧
    (∀ s : Store, (∀ p ∈ s, '.' ∈ (p.1 : String).data) →
      ∃ cs, serverList s = some { resp := cs, err := none }) := by
  refine ⟨fun s id => rfl, fun s r => rfl, fun s r => rfl, fun s r => rfl,
    fun s h => ?_⟩
  obtain ⟨cs, hcs⟩ := assemble_some s [] h
  exact ⟨cs, by simp [serverList, hcs]⟩

/-- Witness for C2 at a concrete store whose every key contains the
separator. -/
theorem rpcSuccessAlways_witness :
    (serverGet [("a.Name", "x")] "a").err = none ∧
    ∃ cs, serverList [("a.Name", "x")] = some { resp := cs, err := none } :=
  ⟨rpcSuccessAlways.1 [("a.Name", "x")] "a",
   rpcSuccessAlways.2.2.2.2 [("a.Name", "x")] (by decide)⟩

/-- Counterexample to claim C4: on the store holding only the pair
`("a.Name", "N")`, `Get "a"` aborts its read transaction on the missing
Semester key, yet the returned record's name is `"N"`, not empty: the
closure had already assigned `c.Name` before the failing lookup. -/
theorem getAbortEmpty_cex :
    (getTxn [("a.Name", "N")] "a").2.isSome = true ∧
    (serverGet [("a.Name", "N")] "a").resp.name ≠ "" := by decide

/-- Claim C4 as amended: when `Get`'s read transaction aborts because
the Name key is missing, the returned record has empty name and
semester; when the Name key is present but the Semester key is missing,
the returned record carries the stored name value and an empty
semester. -/
theorem getAbortEmpty_amended :
    (∀ (s : Store) (id : String),
      getKey s (id ++ delim ++ "Name") = none →
      (serverGet s id).resp = ⟨id, "", ""⟩) ∧
    (∀ (s : Store) (id nv : String),
      getKey s (id ++ delim ++ "Name") = some nv →
      getKey s (id ++ delim ++ "Semester") = none →
      (serverGet s id).resp = ⟨id, nv, ""⟩) := by
  constructor
  · intro s id h
    simp [serverGet, getTxn, h]
  · intro s id nv h1 h2
    simp [serverGet, getTxn, h1, h2]

/-- Witness for the amended C4: both abort shapes at concrete stores. -/
theorem getAbortEmpty_amended_witness :
    (serverGet [("a.Name", "N")] "b").resp = ⟨"b", "", ""⟩ ∧
    (serverGet [("a.Name", "N")] "a").resp = ⟨"a", "N", ""⟩ :=
  ⟨getAbortEmpty_amended.1 [("a.Name", "N")] "b" (by decide),
   getAbortEmpty_amended.2 [("a.Name", "N")] "a" "N" (by decide) (by decide)⟩

theorem assemble_value_irrelevant (s1 s2 : Store) (k v v' id p : String)
    (hk : decodeKey k = some (id, p)) (h1 : p ≠ "Name") (h2 : p ≠ "Semester")
    (acc : List Pb.Class) :
    assemble acc (s1 ++ (k, v) :: s2) = assemble acc (s1 ++ (k, v') :: s2) := by
  induction s1 generalizing acc with
  | nil =>
    simp only [List.nil_append, assemble, hk]
    cases findIdxById acc id with
    | some i => simp [setField_unknown _ _ _ h1 h2]
    | none => simp [setField_unknown _ _ _ h1 h2]
  | cons q rest ih =>
    obtain ⟨qk, qv⟩ := q
    cases hq : decodeKey qk with
    | none => simp [assemble, hq]
    | some pr =>
      obtain ⟨qid, qp⟩ := pr
      cases hf : findIdxById acc qid with
      | some i =>
        simp only [List.cons_append, assemble, hq, hf]
        exact ih _
      | none =>
        simp only [List.cons_append, assemble, hq, hf]
        exact ih _

/-- Claim C6: a stored pair whose key decodes to an unrecognized field
name contributes nothing to any record's name or semester — the `List`
outcome does not depend on that pair's value at all — and a record whose
only stored pair carries an unrecognized field name is still emitted,
with empty name and semester. -/
theorem unknownFieldTolerance :
    (∀ (s1 s2 : Store) (k v v' id p : String),
      decodeKey k = some (id, p) → p ≠ "Name" → p ≠ "Semester" →
      serverList (s1 ++ (k, v) :: s2) = serverList (s1 ++ (k, v') :: s2)) ∧
    serverList [("a.Other", "x")] = some { resp := [⟨"a", "", ""⟩], err := none } := by
  constructor
  · intro s1 s2 k v v' id p hk h1 h2
    unfold serverList
    rw [assemble_value_irrelevant s1 s2 k v v' id p hk h1 h2]
  · decide

/-- Witness for C6: replacing the value under the unrecognized key
`"a.Other"` does not change the `List` response. -/
theorem unknownFieldTolerance_witness :
    serverList [("a.Other", "x")] = serverList [("a.Other", "y")] :=
  unknownFieldTolerance.1 [] [] "a.Other" "x" "y" "a" "Other"
    (by decide) (by decide) (by decide)

/-- Claim C7: creating records with ids `"a"`, `"b"`, `"c"` (any names
and semesters) into the empty store makes `List` return exactly the
three records, ids `"a"`, `"b"`, `"c"` each once, each carrying the
name and semester it was created with. -/
theorem listThreeCreates (n1 m1 n2 m2 n3 m3 : String) :
    serverList (serverCreate (serverCreate (serverCreate ([] : Store)
        ⟨"a", n1, m1⟩).1 ⟨"b", n2, m2⟩).1 ⟨"c", n3, m3⟩).1
      = some { resp := [⟨"a", n1, m1⟩, ⟨"b", n2, m2⟩, ⟨"c", n3, m3⟩],
               err := none } := by
  rfl
